import Mathlib

/-!
Verification of the tasuki2sgf diagram-to-SGF converter.

This file gives a shallow embedding of the program `tasuki2sgf.py`
(class `SimpleSGF`, the functions `tex2sgf`, `extract_sgf`, `merge_sgfs`)
and proves or refutes the specification claims about it.

Conventions of the embedding:
- Python strings are Lean `String`s; `bytes` output of `serialize` is kept
  as the underlying `String` (UTF-8 encoding is a bijection on it).
- Python `set`s are embedded as duplicate-free `List`s in insertion order
  (Python's set iteration order is unspecified; the spec tolerates any
  order, and membership/extensional facts are order independent).
- Python integers are `Int`; the board coordinates computed by the parser
  can be negative, so coordinates are `Int × Int`.
- `chr` is `Char.ofNat`, `ord` is `Char.toNat`; `str.upper()` is
  `String.toUpper` (agreeing with Python on the ASCII inputs that occur).
- A raised Python exception (failed `assert`, `AttributeError`) is an
  `Option`/`Except` failure value.
-/

/-- Python `needle in hay` prefix step: does `needle` start `hay`? -/
def leadEq : List Char → List Char → Bool
  | _, [] => true
  | [], _ :: _ => false
  | a :: as, b :: bs => a = b && leadEq as bs

/-- Python substring containment `needle in hay`, on character lists. -/
def hasSub : List Char → List Char → Bool
  | hay, needle =>
    leadEq hay needle ||
      match hay with
      | [] => false
      | _ :: t => hasSub t needle

/-- Python `needle in hay` for strings (substring containment). -/
def strIn (needle hay : String) : Bool :=
  hasSub hay.data needle.data

/-- One pass of Python `str.replace` for a nonempty pattern: leftmost,
non-overlapping.  Fueled by the remaining length so the recursion is
structural; each step consumes at least one character of `hay`, so fuel
`hay.length` always suffices. -/
def replaceFuel (pat rep : List Char) : Nat → List Char → List Char
  | 0, hay => hay
  | _ + 1, [] => []
  | fuel + 1, c :: t =>
    if leadEq (c :: t) pat then rep ++ replaceFuel pat rep fuel ((c :: t).drop pat.length)
    else c :: replaceFuel pat rep fuel t

/-- Python `s.replace(pat, rep)` for the nonempty patterns the program
uses. -/
def pyReplace (s pat rep : String) : String :=
  if pat.data = [] then s
  else ⟨replaceFuel pat.data rep.data s.data.length s.data⟩

/-- Python `s.split(sep)` for a nonempty separator, fueled like
`replaceFuel`; keeps empty pieces, and `"".split(sep) == [""]`. -/
def splitFuel (sep : List Char) : Nat → List Char → List Char → List (List Char)
  | 0, acc, hay => [acc ++ hay]
  | _ + 1, acc, [] => [acc]
  | fuel + 1, acc, c :: t =>
    if leadEq (c :: t) sep then acc :: splitFuel sep fuel [] ((c :: t).drop sep.length)
    else splitFuel sep fuel (acc ++ [c]) t

/-- Python `s.split(sep)` on strings. -/
def pySplit (s sep : String) : List String :=
  (splitFuel sep.data s.data.length [] s.data).map String.mk

/-- Python `s.upper()`: agrees with `str.upper` on the ASCII strings this
program handles. -/
def pyUpper (s : String) : String :=
  ⟨s.data.map Char.toUpper⟩

/-- Insertion into a Python set embedded as a duplicate-free list:
`s.add(a)` keeps the set unchanged when `a` is already present. -/
def setInsert {α : Type} [DecidableEq α] (l : List α) (a : α) : List α :=
  if a ∈ l then l else l ++ [a]

/-- Python `set(l)`: deduplicate a list, keeping first occurrences. -/
def listToSet {α : Type} [DecidableEq α] (l : List α) : List α :=
  l.foldl setInsert []

/-- The `SimpleSGF` class: a static board with stones, labels, a comment
and a player to move.  Fields mirror `SimpleSGF.__init__`. -/
structure SimpleSGF where
  size : Nat
  setup_black : List (Int × Int)
  setup_white : List (Int × Int)
  marks : List (String × Int × Int)
  comment : Option String
  player : String
deriving DecidableEq

/-- Constructor `SimpleSGF(size)`: empty stone and mark sets, no comment,
player `"B"`. -/
def initSGF (size : Nat := 19) : SimpleSGF :=
  { size := size, setup_black := [], setup_white := [], marks := [],
    comment := none, player := "B" }

namespace SimpleSGF

/-- Method `SimpleSGF.coord2letter`: `chr(col + 97) + chr(self.size - row - 1 + 97)`. -/
def coord2letter (size : Nat) (row col : Int) : String :=
  String.mk [Char.ofNat (col + 97).toNat,
             Char.ofNat ((size : Int) - row - 1 + 97).toNat]

/-- Method `SimpleSGF.set_setup_stones`: replace both stone sets wholesale
(`set(black)`, `set(white)`). -/
def set_setup_stones (g : SimpleSGF) (black white : List (Int × Int)) : SimpleSGF :=
  { g with setup_black := listToSet black, setup_white := listToSet white }

/-- Method `SimpleSGF.add_label`: insert one `(label, row, col)` triple into the
`marks` set. -/
def add_label (g : SimpleSGF) (label : String) (row col : Int) : SimpleSGF :=
  { g with marks := setInsert g.marks (label, row, col) }

/-- Method `SimpleSGF.set_comment`. -/
def set_comment (g : SimpleSGF) (comment : String) : SimpleSGF :=
  { g with comment := some comment }

/-- Method `SimpleSGF.set_player`: `assert player.upper() in "BW"` then store
`player.upper()`.  The Python `in` is substring containment in the
two-character string `"BW"`; a failed assert raises (here: `none`). -/
def set_player (g : SimpleSGF) (player : String) : Option SimpleSGF :=
  if strIn (pyUpper player) "BW" then some { g with player := pyUpper player }
  else none

/-- Method `SimpleSGF.flip_colors`: swap the stone sets, then
`if self.player == "B": self.player = "W"`, then
`if self.player == "W": self.player == "B"` — the body of the second
conditional is a comparison expression, not an assignment, so it changes
nothing. -/
def flip_colors (g : SimpleSGF) : SimpleSGF :=
  let g := { g with setup_black := g.setup_white, setup_white := g.setup_black }
  let g := if g.player = "B" then { g with player := "W" } else g
  g

/-- Method `SimpleSGF.serialize`: build the SGF record.  Sections guarded by
Python truthiness (`if self.comment:` etc.) are emitted only for a
non-`None`, non-empty value. -/
def serialize (g : SimpleSGF) : String :=
  let buffer := ";FF[4]GM[1]" ++ "SZ[" ++ toString g.size ++ "]"
  let buffer := match g.comment with
    | some c => if c = "" then buffer else buffer ++ "\nC[" ++ c ++ "]"
    | none => buffer
  let buffer := if g.player = "" then buffer else buffer ++ "\nPL[" ++ g.player ++ "]"
  let buffer := if g.setup_black = [] then buffer else
    buffer ++ "\nAB" ++
      String.join (g.setup_black.map fun x => "[" ++ coord2letter g.size x.1 x.2 ++ "]")
  let buffer := if g.setup_white = [] then buffer else
    buffer ++ "\nAW" ++
      String.join (g.setup_white.map fun x => "[" ++ coord2letter g.size x.1 x.2 ++ "]")
  let buffer := if g.marks = [] then buffer else
    buffer ++ "\nLB" ++
      String.join (g.marks.map fun x =>
        "[" ++ coord2letter g.size x.2.1 x.2.2 ++ ":" ++ x.1 ++ "]")
  let buffer := buffer ++ "\nCA[UTF-8]"
  "(" ++ buffer ++ ")\n"

end SimpleSGF

/-- Accumulator of the `tex2sgf` loops: the `marks` set built through
`game.add_label` and the `setup["black"]`/`setup["white"]` lists. -/
structure ParseAcc where
  marks : List (String × Int × Int)
  black : List (Int × Int)
  white : List (Int × Int)
deriving DecidableEq

/-- The inner `for symbol in row` loop of `tex2sgf`, threading the column
counter `col_num`.  `symbol in "A-Z"` is Python substring membership in
the three-character string `"A-Z"`, i.e. the symbol is `'A'`, `'-'` or
`'Z'`; `symbol in "@!"` diverts the two stone glyphs into the stone lists,
and only the `else` branch advances `col_num`.  Returns the accumulator
and the final `col_num`. -/
def walkLine (size rowNum : Nat) : List Char → Nat → ParseAcc → ParseAcc × Nat
  | [], col, acc => (acc, col)
  | c :: rest, col, acc =>
    let rowCoord : Int := (size : Int) - 1 - (rowNum : Int)
    let acc := if c ∈ ['A', '-', 'Z'] then
        { acc with marks := setInsert acc.marks (String.singleton c, rowCoord, (col : Int)) }
      else acc
    if c = '@' then
      walkLine size rowNum rest col
        { acc with black := acc.black ++ [(rowCoord, (col : Int))] }
    else if c = '!' then
      walkLine size rowNum rest col
        { acc with white := acc.white ++ [(rowCoord, (col : Int))] }
    else
      walkLine size rowNum rest (col + 1) acc

/-- The outer `for row_num, row in enumerate(lines)` loop of `tex2sgf`:
each line restarts `col_num` at 0. -/
def walkLines (size : Nat) : Nat → List String → ParseAcc → ParseAcc
  | _, [], acc => acc
  | rowNum, row :: rest, acc =>
    walkLines size (rowNum + 1) rest (walkLine size rowNum row.data 0 acc).1

/-- The escape stripping and line splitting at the head of `tex2sgf`. -/
def cleanLines (tex : String) : List String :=
  pySplit (pyReplace (pyReplace (pyReplace tex "\\0??" "") "\\- " "") "\\!  " "") "\n"

/-- Function `tex2sgf`: strip escapes, split into lines, walk the grid, then
`set_setup_stones` with the accumulated lists. -/
def tex2sgf (tex : String) : SimpleSGF :=
  let game := initSGF 19
  let acc := walkLines game.size 0 (cleanLines tex) ⟨[], [], []⟩
  let game := { game with marks := acc.marks }
  game.set_setup_stones acc.black acc.white

/-- Decoder written from the spec's words, to compare with
`coord2letter`: invert the two character maps, so the column is
`ord(column_letter) - 97` and the row is `size - 1 - (ord(row_letter) - 97)`.
This definition has no counterpart in the source; it exists only to state
the coordinate round-trip. -/
def letter2coord (size : Nat) (s : String) : Int × Int :=
  match s.data with
  | [c1, c2] => ((size : Int) - 1 - ((c2.toNat : Int) - 97), (c1.toNat : Int) - 97)
  | _ => (0, 0)

/-- One iteration body of the `extract_sgf` loop, for one positionally
paired (diagram, title): parse, set player/rewrite title, set comment,
serialize.  When the title contains "white to play" and `normalize` is
set, the rewritten title is probed with `name.endwith("black to play")`;
`str` has no method `endwith` (the method is `endswith`), so that
attribute access raises `AttributeError` unconditionally, embedded as an
`Except.error`. -/
def processProblem (normalize : Bool) (board title : String) : Except String String :=
  let game := tex2sgf board
  let name := title
  match
    (if strIn "white to play" name then
      match game.set_player "W" with
      | none => Except.error "AssertionError"
      | some game =>
        if normalize then
          let _name :=
            pyReplace (pyReplace (pyReplace name "black" "!!temp") "white" "black") "!!temp" "white"
          Except.error "AttributeError: str object has no attribute endwith"
        else Except.ok (name, game)
    else Except.ok (name, game)) with
  | Except.error e => Except.error e
  | Except.ok (name, game) =>
    let game := game.set_comment name
    Except.ok game.serialize

/-- The `extract_sgf` loop over the positionally paired (diagram, title)
matches: each successful iteration writes one serialized SGF; the first
raised exception aborts the run, so nothing is written for that problem
or any later one.  Returns the written files and the exception, if any. -/
def extract_sgf (normalize : Bool) : List (String × String) → List String × Option String
  | [] => ([], none)
  | (board, title) :: rest =>
    match processProblem normalize board title with
    | Except.error e => ([], some e)
    | Except.ok out =>
      let (outs, err) := extract_sgf normalize rest
      (out :: outs, err)

/-- Python `Path.stem`: the filename without its final dot-suffix. -/
def stem (s : String) : String :=
  let parts := pySplit s "."
  if 2 ≤ parts.length then String.intercalate "." parts.dropLast else s

/-- Python `re.findall(r"\d+", s)` followed by `int(...)`: the maximal runs of
decimal digits in `s`, as numbers.  The second argument carries the run
being read, `none` when outside a run. -/
def findInts : List Char → Option Nat → List Nat
  | [], none => []
  | [], some n => [n]
  | c :: rest, none =>
    if c.isDigit then findInts rest (some (c.toNat - 48)) else findInts rest none
  | c :: rest, some n =>
    if c.isDigit then findInts rest (some (n * 10 + (c.toNat - 48)))
    else n :: findInts rest none

/-- The `merge_sgfs` sort key: `[int(x) for x in re.findall(r"\d+", str(p.stem))]`. -/
def mergeKey (p : String) : List Nat :=
  findInts (stem p).data none

/-- Python list comparison `a <= b` on lists of integers: lexicographic. -/
def keyLe : List Nat → List Nat → Bool
  | [], _ => true
  | _ :: _, [] => false
  | a :: as, b :: bs => if a < b then true else if b < a then false else keyLe as bs

/-- The ordering `merge_sgfs` sorts the filenames by: compare the
embedded-integer key sequences. -/
def mergeLe (p q : String) : Prop :=
  keyLe (mergeKey p) (mergeKey q) = true

instance : DecidableRel mergeLe := fun p q => by
  unfold mergeLe; exact inferInstance

/-- The order in which `merge_sgfs` processes the files of the input
directory: `sorted(files, key=...)`, embedded as a stable sort by
`mergeLe`. -/
def mergeOrder (files : List String) : List String :=
  List.insertionSort mergeLe files

/-- The coordinate-range invariant claimed for parser output: every
black-stone, white-stone and label coordinate lies in `[0, size)`. -/
def coordsInRange (g : SimpleSGF) : Prop :=
  (∀ p ∈ g.setup_black, 0 ≤ p.1 ∧ p.1 < (g.size : Int) ∧ 0 ≤ p.2 ∧ p.2 < (g.size : Int)) ∧
  (∀ p ∈ g.setup_white, 0 ≤ p.1 ∧ p.1 < (g.size : Int) ∧ 0 ≤ p.2 ∧ p.2 < (g.size : Int)) ∧
  (∀ m ∈ g.marks, 0 ≤ m.2.1 ∧ m.2.1 < (g.size : Int) ∧ 0 ≤ m.2.2 ∧ m.2.2 < (g.size : Int))

/-! ## Helper lemmas -/

theorem mem_setInsert {α : Type} [DecidableEq α] (l : List α) (a b : α) :
    a ∈ setInsert l b ↔ a ∈ l ∨ a = b := by
  by_cases h : b ∈ l
  · simp only [setInsert, if_pos h]
    constructor
    · exact Or.inl
    · rintro (h' | rfl)
      · exact h'
      · exact h
  · simp [setInsert, if_neg h]

theorem mem_listToSet {α : Type} [DecidableEq α] (l : List α) (a : α) :
    a ∈ listToSet l ↔ a ∈ l := by
  have key : ∀ (l init : List α), a ∈ l.foldl setInsert init ↔ a ∈ init ∨ a ∈ l := by
    intro l
    induction l with
    | nil => intro init; simp
    | cons x xs ih =>
      intro init
      simp only [List.foldl_cons, ih, mem_setInsert, List.mem_cons]
      tauto
  simpa [listToSet] using key l []

/-- Every stone or label coordinate that `walkLine` adds on top of the
incoming accumulator sits on this line's row and on a column between the
starting column and the starting column plus the line length. -/
theorem walkLine_mem (size rowNum : Nat) :
    ∀ (cs : List Char) (col : Nat) (acc : ParseAcc),
      (∀ p ∈ ((walkLine size rowNum cs col acc).1).black,
          p ∈ acc.black ∨
            (p.1 = (size : Int) - 1 - (rowNum : Int) ∧
             (col : Int) ≤ p.2 ∧ p.2 < (col : Int) + (cs.length : Int))) ∧
      (∀ p ∈ ((walkLine size rowNum cs col acc).1).white,
          p ∈ acc.white ∨
            (p.1 = (size : Int) - 1 - (rowNum : Int) ∧
             (col : Int) ≤ p.2 ∧ p.2 < (col : Int) + (cs.length : Int))) ∧
      (∀ m ∈ ((walkLine size rowNum cs col acc).1).marks,
          m ∈ acc.marks ∨
            (m.2.1 = (size : Int) - 1 - (rowNum : Int) ∧
             (col : Int) ≤ m.2.2 ∧ m.2.2 < (col : Int) + (cs.length : Int))) := by
  intro cs
  induction cs with
  | nil =>
    intro col acc
    refine ⟨?_, ?_, ?_⟩ <;> intro p hp <;> exact Or.inl (by simpa [walkLine] using hp)
  | cons c rest ih =>
    intro col acc
    by_cases hb : c = '@'
    · subst hb
      have hstep : walkLine size rowNum ('@' :: rest) col acc =
          walkLine size rowNum rest col
            { acc with black :=
                acc.black ++ [((size : Int) - 1 - (rowNum : Int), (col : Int))] } := by
        simp [walkLine, (by decide : ('@' : Char) ∉ (['A', '-', 'Z'] : List Char))]
      rw [hstep]
      obtain ⟨ihb, ihw, ihm⟩ := ih col
        { acc with black := acc.black ++ [((size : Int) - 1 - (rowNum : Int), (col : Int))] }
      refine ⟨?_, ?_, ?_⟩
      · intro p hp
        rcases ihb p hp with h | h
        · rcases List.mem_append.1 h with h' | h'
          · exact Or.inl h'
          · right
            simp only [List.mem_singleton] at h'
            subst h'
            refine ⟨rfl, le_refl _, ?_⟩
            simp only [List.length_cons]
            push_cast
            omega
        · right
          obtain ⟨h1, h2, h3⟩ := h
          refine ⟨h1, h2, ?_⟩
          simp only [List.length_cons] at h3 ⊢
          push_cast at h3 ⊢
          omega
      · intro p hp
        rcases ihw p hp with h | h
        · exact Or.inl h
        · right
          obtain ⟨h1, h2, h3⟩ := h
          refine ⟨h1, h2, ?_⟩
          simp only [List.length_cons] at h3 ⊢
          push_cast at h3 ⊢
          omega
      · intro m hm
        rcases ihm m hm with h | h
        · exact Or.inl h
        · right
          obtain ⟨h1, h2, h3⟩ := h
          refine ⟨h1, h2, ?_⟩
          simp only [List.length_cons] at h3 ⊢
          push_cast at h3 ⊢
          omega
    · by_cases hw : c = '!'
      · subst hw
        have hstep : walkLine size rowNum ('!' :: rest) col acc =
            walkLine size rowNum rest col
              { acc with white :=
                  acc.white ++ [((size : Int) - 1 - (rowNum : Int), (col : Int))] } := by
          simp [walkLine, (by decide : ('!' : Char) ∉ (['A', '-', 'Z'] : List Char))]
        rw [hstep]
        obtain ⟨ihb, ihw, ihm⟩ := ih col
          { acc with white := acc.white ++ [((size : Int) - 1 - (rowNum : Int), (col : Int))] }
        refine ⟨?_, ?_, ?_⟩
        · intro p hp
          rcases ihb p hp with h | h
          · exact Or.inl h
          · right
            obtain ⟨h1, h2, h3⟩ := h
            refine ⟨h1, h2, ?_⟩
            simp only [List.length_cons] at h3 ⊢
            push_cast at h3 ⊢
            omega
        · intro p hp
          rcases ihw p hp with h | h
          · rcases List.mem_append.1 h with h' | h'
            · exact Or.inl h'
            · right
              simp only [List.mem_singleton] at h'
              subst h'
              refine ⟨rfl, le_refl _, ?_⟩
              simp only [List.length_cons]
              push_cast
              omega
          · right
            obtain ⟨h1, h2, h3⟩ := h
            refine ⟨h1, h2, ?_⟩
            simp only [List.length_cons] at h3 ⊢
            push_cast at h3 ⊢
            omega
        · intro m hm
          rcases ihm m hm with h | h
          · exact Or.inl h
          · right
            obtain ⟨h1, h2, h3⟩ := h
            refine ⟨h1, h2, ?_⟩
            simp only [List.length_cons] at h3 ⊢
            push_cast at h3 ⊢
            omega
      · by_cases hl : c ∈ (['A', '-', 'Z'] : List Char)
        · have hstep : walkLine size rowNum (c :: rest) col acc =
              walkLine size rowNum rest (col + 1)
                { acc with marks := setInsert acc.marks (String.singleton c, (size : Int) - 1 - (rowNum : Int), (col : Int)) } := by
            simp [walkLine, hl, hb, hw]
          rw [hstep]
          obtain ⟨ihb, ihw, ihm⟩ := ih (col + 1)
            { acc with marks := setInsert acc.marks (String.singleton c, (size : Int) - 1 - (rowNum : Int), (col : Int)) }
          refine ⟨?_, ?_, ?_⟩
          · intro p hp
            rcases ihb p hp with h | h
            · exact Or.inl h
            · right
              obtain ⟨h1, h2, h3⟩ := h
              simp only [List.length_cons] at h3 ⊢
              push_cast at h2 h3 ⊢
              exact ⟨h1, by omega, by omega⟩
          · intro p hp
            rcases ihw p hp with h | h
            · exact Or.inl h
            · right
              obtain ⟨h1, h2, h3⟩ := h
              simp only [List.length_cons] at h3 ⊢
              push_cast at h2 h3 ⊢
              exact ⟨h1, by omega, by omega⟩
          · intro m hm
            rcases ihm m hm with h | h
            · rcases (mem_setInsert _ _ _).1 h with h' | h'
              · exact Or.inl h'
              · right
                subst h'
                refine ⟨rfl, le_refl _, ?_⟩
                simp only [List.length_cons]
                push_cast
                omega
            · right
              obtain ⟨h1, h2, h3⟩ := h
              simp only [List.length_cons] at h3 ⊢
              push_cast at h2 h3 ⊢
              exact ⟨h1, by omega, by omega⟩
        · have hstep : walkLine size rowNum (c :: rest) col acc =
              walkLine size rowNum rest (col + 1) acc := by
            simp [walkLine, hl, hb, hw]
          rw [hstep]
          obtain ⟨ihb, ihw, ihm⟩ := ih (col + 1) acc
          refine ⟨?_, ?_, ?_⟩
          · intro p hp
            rcases ihb p hp with h | h
            · exact Or.inl h
            · right
              obtain ⟨h1, h2, h3⟩ := h
              simp only [List.length_cons] at h3 ⊢
              push_cast at h2 h3 ⊢
              exact ⟨h1, by omega, by omega⟩
          · intro p hp
            rcases ihw p hp with h | h
            · exact Or.inl h
            · right
              obtain ⟨h1, h2, h3⟩ := h
              simp only [List.length_cons] at h3 ⊢
              push_cast at h2 h3 ⊢
              exact ⟨h1, by omega, by omega⟩
          · intro m hm
            rcases ihm m hm with h | h
            · exact Or.inl h
            · right
              obtain ⟨h1, h2, h3⟩ := h
              simp only [List.length_cons] at h3 ⊢
              push_cast at h2 h3 ⊢
              exact ⟨h1, by omega, by omega⟩

/-- Every stone or label coordinate that `walkLines` adds on top of the
incoming accumulator has a row between `size - rowNum - lines.length`
and `size - 1 - rowNum` and a column in `[0, L)` whenever every line is
at most `L` characters long. -/
theorem walkLines_mem (size L : Nat) :
    ∀ (lines : List String) (rowNum : Nat) (acc : ParseAcc),
      (∀ l ∈ lines, l.data.length ≤ L) →
      (∀ p ∈ (walkLines size rowNum lines acc).black,
          p ∈ acc.black ∨
            ((size : Int) - rowNum - lines.length ≤ p.1 ∧
             p.1 ≤ (size : Int) - 1 - rowNum ∧ 0 ≤ p.2 ∧ p.2 < (L : Int))) ∧
      (∀ p ∈ (walkLines size rowNum lines acc).white,
          p ∈ acc.white ∨
            ((size : Int) - rowNum - lines.length ≤ p.1 ∧
             p.1 ≤ (size : Int) - 1 - rowNum ∧ 0 ≤ p.2 ∧ p.2 < (L : Int))) ∧
      (∀ m ∈ (walkLines size rowNum lines acc).marks,
          m ∈ acc.marks ∨
            ((size : Int) - rowNum - lines.length ≤ m.2.1 ∧
             m.2.1 ≤ (size : Int) - 1 - rowNum ∧ 0 ≤ m.2.2 ∧ m.2.2 < (L : Int))) := by
  intro lines
  induction lines with
  | nil =>
    intro rowNum acc _
    refine ⟨?_, ?_, ?_⟩ <;> intro p hp <;> exact Or.inl (by simpa [walkLines] using hp)
  | cons l rest ih =>
    intro rowNum acc hlen
    have hstep : walkLines size rowNum (l :: rest) acc =
        walkLines size (rowNum + 1) rest (walkLine size rowNum l.data 0 acc).1 := by
      simp [walkLines]
    have hlL : (l.data.length : Int) ≤ (L : Int) := by
      exact_mod_cast hlen l (List.mem_cons_self _ _)
    obtain ⟨wb, ww, wm⟩ := walkLine_mem size rowNum l.data 0 acc
    obtain ⟨rb, rw', rm⟩ := ih (rowNum + 1) (walkLine size rowNum l.data 0 acc).1
      (fun x hx => hlen x (List.mem_cons_of_mem _ hx))
    rw [hstep]
    refine ⟨?_, ?_, ?_⟩
    · intro p hp
      rcases rb p hp with h | h
      · rcases wb p h with h' | h'
        · exact Or.inl h'
        · right
          obtain ⟨h1, h2, h3⟩ := h'
          simp only [List.length_cons]
          push_cast at h2 h3 ⊢
          omega
      · right
        obtain ⟨h1, h2, h3, h4⟩ := h
        simp only [List.length_cons]
        push_cast at h1 h2 ⊢
        exact ⟨by omega, by omega, h3, h4⟩
    · intro p hp
      rcases rw' p hp with h | h
      · rcases ww p h with h' | h'
        · exact Or.inl h'
        · right
          obtain ⟨h1, h2, h3⟩ := h'
          simp only [List.length_cons]
          push_cast at h2 h3 ⊢
          omega
      · right
        obtain ⟨h1, h2, h3, h4⟩ := h
        simp only [List.length_cons]
        push_cast at h1 h2 ⊢
        exact ⟨by omega, by omega, h3, h4⟩
    · intro m hm
      rcases rm m hm with h | h
      · rcases wm m h with h' | h'
        · exact Or.inl h'
        · right
          obtain ⟨h1, h2, h3⟩ := h'
          simp only [List.length_cons]
          push_cast at h2 h3 ⊢
          omega
      · right
        obtain ⟨h1, h2, h3, h4⟩ := h
        simp only [List.length_cons]
        push_cast at h1 h2 ⊢
        exact ⟨by omega, by omega, h3, h4⟩

/-- C5 counterexample: the coordinate-range invariant fails for inputs
with more than 19 lines — a 20th diagram line places a stone at board
row `19 - 1 - 19 = -1`. -/
theorem parser_row_can_be_negative :
    (tex2sgf "\n\n\n\n\n\n\n\n\n\n\n\n\n\n\n\n\n\n\n@").setup_black = [(-1, 0)] ∧
    ¬ (0 ≤ (-1 : Int)) := by decide

/-- C5 (amended): every board produced by `tex2sgf` from an input text
whose cleaned form has at most 19 lines, each of at most 19 characters,
has all stone and label coordinates inside `[0, size)`. -/
theorem tex2sgf_coords_in_range (tex : String)
    (hrows : (cleanLines tex).length ≤ 19)
    (hcols : ∀ l ∈ cleanLines tex, l.length ≤ 19) :
    coordsInRange (tex2sgf tex) := by
  have hsb : (tex2sgf tex).setup_black =
      listToSet (walkLines 19 0 (cleanLines tex) ⟨[], [], []⟩).black := rfl
  have hsw : (tex2sgf tex).setup_white =
      listToSet (walkLines 19 0 (cleanLines tex) ⟨[], [], []⟩).white := rfl
  have hsm : (tex2sgf tex).marks = (walkLines 19 0 (cleanLines tex) ⟨[], [], []⟩).marks := rfl
  have hsz : (tex2sgf tex).size = 19 := rfl
  have hL : ((cleanLines tex).length : Int) ≤ 19 := by exact_mod_cast hrows
  obtain ⟨hb, hw, hm⟩ := walkLines_mem 19 19 (cleanLines tex) 0 ⟨[], [], []⟩
    (fun l hl => hcols l hl)
  refine ⟨?_, ?_, ?_⟩
  · intro p hp
    rw [hsb, mem_listToSet] at hp
    rcases hb p hp with h | h
    · exact absurd h (List.not_mem_nil p)
    · obtain ⟨h1, h2, h3, h4⟩ := h
      rw [hsz]
      push_cast at h1 h2 ⊢
      exact ⟨by omega, by omega, h3, h4⟩
  · intro p hp
    rw [hsw, mem_listToSet] at hp
    rcases hw p hp with h | h
    · exact absurd h (List.not_mem_nil p)
    · obtain ⟨h1, h2, h3, h4⟩ := h
      rw [hsz]
      push_cast at h1 h2 ⊢
      exact ⟨by omega, by omega, h3, h4⟩
  · intro m hm'
    rw [hsm] at hm'
    rcases hm m hm' with h | h
    · exact absurd h (List.not_mem_nil m)
    · obtain ⟨h1, h2, h3, h4⟩ := h
      rw [hsz]
      push_cast at h1 h2 ⊢
      exact ⟨by omega, by omega, h3, h4⟩

/-- C5 witness: the two-line diagram `"@!"` satisfies the amended
coordinate-range invariant. -/
theorem tex2sgf_coords_in_range_witness : coordsInRange (tex2sgf "@!") :=
  tex2sgf_coords_in_range "@!" (by decide) (by decide)

/-- C1: flip_colors is claimed to be an involution that also swaps the
player.  The code violates this: starting from the freshly parsed board
(player `"B"`), two successive `flip_colors` calls leave the player at
`"W"`, because the second conditional of `flip_colors` compares instead
of assigning, so `"W"` is never flipped back to `"B"`. -/
theorem flip_colors_not_involutive :
    ((tex2sgf "@!\n!@").flip_colors.flip_colors).player = "W" ∧
    (tex2sgf "@!\n!@").player = "B" ∧
    (tex2sgf "@!\n!@").flip_colors.flip_colors ≠ tex2sgf "@!\n!@" := by decide

/-- C8: after the extractor sets the player to White and invokes
`flip_colors`, the stored player is still `"W"`, not the claimed `"B"`:
the `if self.player == "W": self.player == "B"` branch of `flip_colors`
performs a comparison, not an assignment. -/
theorem set_white_then_flip_stays_white :
    Option.map (fun g => g.flip_colors.player) ((tex2sgf "@!").set_player "W") =
      some "W" := by decide

/-- C6: label recognition is broken in the code: `symbol in "A-Z"` is
substring membership in the three-character string `"A-Z"`, so the
uppercase letter `'B'` produces no label while the non-letter `'-'`
produces one. -/
theorem label_recognition_glyphs :
    (tex2sgf "B").marks = [] ∧ (tex2sgf "-").marks = [("-", 18, 0)] := by decide

/-- C2 counterexample: on the diagram line `".@"` (empty point then a
black stone) the column counter finishes at 1, not at the line's
character count 2 — the stone glyph `'@'` does not advance the column. -/
theorem stone_glyph_skips_column :
    (walkLine 19 0 ".@".data 0 ⟨[], [], []⟩).2 = 1 ∧
    ".@".data.length = 2 ∧
    (walkLine 19 0 ".@".data 0 ⟨[], [], []⟩).2 ≠ ".@".data.length := by decide

/-- C2 (amended): the column counter advances by exactly one for every
character except the stone glyphs `'@'` and `'!'`, which record a stone
at the current column without advancing; hence a line accounts for as
many columns as it has non-stone characters. -/
theorem walkLine_counts_non_stone_chars (size rowNum : Nat) :
    ∀ (cs : List Char) (col : Nat) (acc : ParseAcc),
      (walkLine size rowNum cs col acc).2 =
        col + cs.countP (fun c => !(c == '@' || c == '!')) := by
  intro cs
  induction cs with
  | nil => intro col acc; simp [walkLine]
  | cons c rest ih =>
    intro col acc
    by_cases hb : c = '@'
    · subst hb; simp [walkLine, ih, List.countP_cons]
    · by_cases hw : c = '!'
      · subst hw; simp [walkLine, ih, List.countP_cons]
      · simp [walkLine, if_neg hb, if_neg hw, ih, List.countP_cons]
        rw [if_pos (show ¬c = '@' ∧ ¬c = '!' from ⟨hb, hw⟩)]
        omega

theorem char_toNat_ofNat {n : Nat} (h : n < 55296) : (Char.ofNat n).toNat = n := by
  have hv : n.isValidChar := Or.inl h
  simp [Char.ofNat, hv, Char.ofNatAux, Char.toNat, UInt32.toNat, BitVec.toNat_ofNatLt]

/-- C4: coordinate round-trip.  For any board size up to 26 (the SGF
letter range; the program only ever constructs boards of size 19) and
any in-range coordinates, decoding the letter pair produced by
`coord2letter` by inverting its two character maps recovers the original
pair. -/
theorem coord2letter_roundtrip (size : Nat) (row col : Int)
    (h1 : 0 ≤ row) (h2 : row < (size : Int)) (h3 : 0 ≤ col) (h4 : col < (size : Int))
    (h5 : size ≤ 26) :
    letter2coord size (SimpleSGF.coord2letter size row col) = (row, col) := by
  have hc : (col + 97).toNat < 55296 := by omega
  have hr : ((size : Int) - row - 1 + 97).toNat < 55296 := by omega
  simp only [SimpleSGF.coord2letter, letter2coord]
  rw [char_toNat_ofNat hc, char_toNat_ofNat hr]
  have e1 : (((col + 97).toNat : Int)) = col + 97 := by omega
  have e2 : ((((size : Int) - row - 1 + 97).toNat : Int)) = (size : Int) - row - 1 + 97 := by
    omega
  rw [e1, e2, Prod.mk.injEq]
  exact ⟨by omega, by omega⟩

/-- C4 witness: round-trip at the program's board size 19, for the
coordinate (5, 7). -/
theorem coord2letter_roundtrip_witness :
    letter2coord 19 (SimpleSGF.coord2letter 19 5 7) = (5, 7) :=
  coord2letter_roundtrip 19 5 7 (by decide) (by decide) (by decide) (by decide)
    (by decide)

/-- The strings accepted by the Python substring test `x in "BW"` are
exactly the contiguous substrings of `"BW"`. -/
theorem hasSub_BW (l : List Char) :
    hasSub ['B', 'W'] l = true ↔ l = [] ∨ l = ['B'] ∨ l = ['W'] ∨ l = ['B', 'W'] := by
  match l with
  | [] => simp [hasSub, leadEq]
  | [a] =>
    by_cases hB : a = 'B'
    · subst hB; simp [hasSub, leadEq]
    · by_cases hW : a = 'W'
      · subst hW; simp [hasSub, leadEq]
      · simp [hasSub, leadEq, hB, hW, Ne.symm hB, Ne.symm hW]
  | [a, b] =>
    by_cases hB : a = 'B'
    · subst hB
      by_cases hW : b = 'W'
      · subst hW; simp [hasSub, leadEq]
      · simp [hasSub, leadEq, hW, Ne.symm hW]
    · simp [hasSub, leadEq, hB, Ne.symm hB]
  | a :: b :: c :: rest => simp [hasSub, leadEq]

/-- C7 counterexample: `set_player("bw")` succeeds, storing `"BW"`,
although `"bw"` is none of `b`, `B`, `w`, `W`: the assert checks Python
substring membership of the upper-cased input in the string `"BW"`. -/
theorem set_player_accepts_bw :
    (initSGF 19).set_player "bw" = some { initSGF 19 with player := "BW" } ∧
    "bw" ≠ "b" ∧ "bw" ≠ "B" ∧ "bw" ≠ "w" ∧ "bw" ≠ "W" := by decide

/-- C7 (amended): `set_player(color)` succeeds — storing the upper-cased
color — exactly when the upper-cased color is a contiguous substring of
`"BW"`, i.e. one of `""`, `"B"`, `"W"`, `"BW"`; every other input makes
the assert raise, leaving the stored player unchanged (the `none`
branch). -/
theorem set_player_characterization (g : SimpleSGF) (p : String) :
    (∃ g', g.set_player p = some g' ∧ g'.player = pyUpper p) ↔
      (pyUpper p = "" ∨ pyUpper p = "B" ∨ pyUpper p = "W" ∨ pyUpper p = "BW") := by
  unfold SimpleSGF.set_player strIn
  have hBW : ("BW" : String).data = ['B', 'W'] := rfl
  rw [hBW]
  by_cases h : hasSub ['B', 'W'] (pyUpper p).data = true
  · rw [if_pos h]
    constructor
    · intro _
      rw [hasSub_BW] at h
      rcases h with h | h | h | h
      · exact Or.inl (String.ext h)
      · exact Or.inr (Or.inl (String.ext h))
      · exact Or.inr (Or.inr (Or.inl (String.ext h)))
      · exact Or.inr (Or.inr (Or.inr (String.ext h)))
    · intro _
      exact ⟨_, rfl, rfl⟩
  · rw [if_neg h]
    constructor
    · rintro ⟨g', hg', -⟩
      exact absurd hg' (by simp)
    · intro hcases
      exfalso
      apply h
      rw [hasSub_BW]
      rcases hcases with h' | h' | h' | h' <;> rw [h']
      · exact Or.inl rfl
      · exact Or.inr (Or.inl rfl)
      · exact Or.inr (Or.inr (Or.inl rfl))
      · exact Or.inr (Or.inr (Or.inr rfl))

theorem keyLe_total : ∀ a b : List Nat, keyLe a b = true ∨ keyLe b a = true := by
  intro a
  induction a with
  | nil => intro b; exact Or.inl rfl
  | cons x xs ih =>
    intro b
    cases b with
    | nil => exact Or.inr rfl
    | cons y ys =>
      unfold keyLe
      rcases Nat.lt_trichotomy x y with h | h | h
      · left; simp [h]
      · subst h; simpa [Nat.lt_irrefl] using ih ys
      · right; simp [h]

theorem keyLe_trans :
    ∀ a b c : List Nat, keyLe a b = true → keyLe b c = true → keyLe a c = true := by
  intro a
  induction a with
  | nil => intro b c _ _; rfl
  | cons x xs ih =>
    intro b c hab hbc
    cases b with
    | nil => simp [keyLe] at hab
    | cons y ys =>
      cases c with
      | nil => simp [keyLe] at hbc
      | cons z zs =>
        unfold keyLe at hab hbc ⊢
        by_cases hxy : x < y
        · by_cases hyz : y < z
          · rw [if_pos (Nat.lt_trans hxy hyz)]
          · by_cases hzy : z < y
            · rw [if_neg hyz, if_pos hzy] at hbc
              exact absurd hbc (by simp)
            · have hyzeq : y = z := by omega
              subst hyzeq
              rw [if_pos hxy]
        · by_cases hyx : y < x
          · rw [if_neg hxy, if_pos hyx] at hab
            exact absurd hab (by simp)
          · rw [if_neg hxy, if_neg hyx] at hab
            by_cases hxz : x < z
            · rw [if_pos hxz]
            · by_cases hzx : z < x
              · have hyz : ¬ y < z := by omega
                have hzy : z < y := by omega
                rw [if_neg hyz, if_pos hzy] at hbc
                exact absurd hbc (by simp)
              · have hyz : ¬ y < z := by omega
                have hzy : ¬ z < y := by omega
                rw [if_neg hyz, if_neg hzy] at hbc
                rw [if_neg hxz, if_neg hzx]
                exact ih ys zs hab hbc

instance : IsTotal String mergeLe :=
  ⟨fun p q => keyLe_total (mergeKey p) (mergeKey q)⟩

instance : IsTrans String mergeLe :=
  ⟨fun _ _ _ h1 h2 => keyLe_trans _ _ _ h1 h2⟩

/-- C9: the Collection Merger orders the input files by the sequences of
integers embedded in their filename stems (lexicographic comparison of
the integer sequences): the processing order is a permutation of the
input that is sorted under that numeric key order, and in particular
"problem 2.sgf", "problem 10.sgf", "problem 1.sgf" are processed in the
order 1, 2, 10, not in lexical order. -/
theorem merger_numeric_order :
    (∀ files : List String,
        List.Sorted mergeLe (mergeOrder files) ∧ List.Perm (mergeOrder files) files) ∧
    mergeOrder ["problem 2.sgf", "problem 10.sgf", "problem 1.sgf"] =
      ["problem 1.sgf", "problem 2.sgf", "problem 10.sgf"] :=
  ⟨fun files =>
    ⟨List.sorted_insertionSort mergeLe files, List.perm_insertionSort mergeLe files⟩,
   by decide⟩

/-- When the title contains "white to play" and normalization is on, the
iteration body raises: `set_player("W")` succeeds, and the rewritten
title is then probed with the non-existent method `endwith`. -/
theorem processProblem_white (board title : String)
    (h : strIn "white to play" title = true) :
    processProblem true board title =
      Except.error "AttributeError: str object has no attribute endwith" := by
  unfold processProblem
  have hW : (tex2sgf board).set_player "W" =
      some { tex2sgf board with player := "W" } := by
    unfold SimpleSGF.set_player
    rw [if_pos (by decide : strIn (pyUpper "W") "BW" = true)]
    rfl
  simp [h, hW]

/-- C10: during extraction with normalize on, any pair whose title
contains "white to play" makes the run raise (the title-rewrite step
calls the non-existent string method `endwith`), so no SGF is produced
for that problem or any later problem: the run reports an exception and
writes at most the outputs of the problems preceding the offending pair. -/
theorem normalize_white_to_play_aborts
    (pre : List (String × String)) (board title : String) (post : List (String × String))
    (h : strIn "white to play" title = true) :
    (extract_sgf true (pre ++ (board, title) :: post)).2.isSome = true ∧
    (extract_sgf true (pre ++ (board, title) :: post)).1.length ≤ pre.length := by
  induction pre with
  | nil =>
    simp [extract_sgf, processProblem_white board title h]
  | cons hd tl ih =>
    obtain ⟨b, t⟩ := hd
    simp only [List.cons_append, extract_sgf]
    cases hp : processProblem true b t with
    | error e => simp
    | ok out =>
      simp only [List.length_cons]
      obtain ⟨ih1, ih2⟩ := ih
      constructor
      · simpa using ih1
      · simpa using Nat.succ_le_succ ih2

/-- C10 witness: a one-problem run whose title contains "white to play"
errors out and writes nothing. -/
theorem normalize_white_to_play_aborts_witness :
    (extract_sgf true ([] ++ ("@", "1. white to play") :: [])).2.isSome = true ∧
    (extract_sgf true ([] ++ ("@", "1. white to play") :: [])).1.length ≤
      ([] : List (String × String)).length :=
  normalize_white_to_play_aborts [] "@" "1. white to play" [] (by decide)

/-- C3 counterexample: parsing `"@!\n!@"` does not give the claimed
stone sets — the claimed black stone (17, 1) and white stone (18, 1) are
absent (stone glyphs do not advance the column counter, so the second
glyph of each row is recorded at column 0). -/
theorem end_to_end_claimed_stones_absent :
    ((17 : Int), (1 : Int)) ∉ (tex2sgf "@!\n!@").setup_black ∧
    ((18 : Int), (1 : Int)) ∉ (tex2sgf "@!\n!@").setup_white := by decide

/-- C3 (amended): parsing `"@!\n!@"` at board size 19 produces black
stones (18,0) and (17,0) and the same two white stones (each row's
second glyph lands on column 0 again), and serialization emits
`AB[aa][ab]` and `AW[aa][ab]`. -/
theorem end_to_end_actual :
    (tex2sgf "@!\n!@").setup_black = [(18, 0), (17, 0)] ∧
    (tex2sgf "@!\n!@").setup_white = [(18, 0), (17, 0)] ∧
    SimpleSGF.serialize (tex2sgf "@!\n!@") =
      "(;FF[4]GM[1]SZ[19]\nPL[B]\nAB[aa][ab]\nAW[aa][ab]\nCA[UTF-8])\n" := by decide
